import Mathlib

/-!
Shallow embedding of the Sledit hierarchical key-index and windowed
navigation engine: `src/app.rs` (struct `App` and its methods) together with
the Backspace branch of `TuiApp::run` in `src/tui_app.rs`.

Modelling conventions:
* Rust byte strings (`&[u8]`, sled keys and values) are `List Nat`;
  Rust `String` is `List Char` (`RStr`).
* `String::from_utf8_lossy` is embedded as `utf8DecodeLossy`, a WHATWG/Rust
  style decoder that replaces each maximal ill-formed subpart with U+FFFD;
  `str::as_bytes` on the join result is `utf8Encode`.
* A sled `Tree` is the list of its key/value pairs in iteration (ascending)
  order; `Tree::get` is `SledTree.getVal`, `Tree::len` is `List.length`.
* `BTreeMap<String, KeyNode>` is an association list.  `entry(..).or_insert`
  updates the first binding of the key or appends a fresh one; the sorted
  iteration order of `BTreeMap` is not reproduced (siblings appear in
  first-insertion order).  None of the verified properties depend on the
  relative order of siblings.
* Fallible Rust operations are embedded with `Option`: a `Vec` index that is
  out of bounds (a Rust panic) is modelled as `none`.
-/

abbrev Bytes := List Nat

abbrev RStr := List Char

def replChar : Char := Char.ofNat 0xFFFD

def isCont (b : Nat) : Bool := decide (0x80 ≤ b) && decide (b < 0xC0)

/-- Fuel-driven UTF-8 decoder with U+FFFD substitution of maximal subparts,
following `String::from_utf8_lossy`.  The fuel is the input length, so it is
never exhausted while input remains. -/
def utf8DecodeAux : Nat → List Nat → List Char
  | 0, _ => []
  | _ + 1, [] => []
  | fuel + 1, b :: bs =>
    if b < 0x80 then Char.ofNat b :: utf8DecodeAux fuel bs
    else if b < 0xC2 then replChar :: utf8DecodeAux fuel bs
    else if b < 0xE0 then
      match bs with
      | b1 :: bs1 =>
        if isCont b1 then
          Char.ofNat ((b - 0xC0) * 0x40 + (b1 - 0x80)) :: utf8DecodeAux fuel bs1
        else replChar :: utf8DecodeAux fuel bs
      | [] => [replChar]
    else if b < 0xF0 then
      match bs with
      | b1 :: bs1 =>
        if (if b = 0xE0 then decide (0xA0 ≤ b1) && decide (b1 < 0xC0)
            else if b = 0xED then decide (0x80 ≤ b1) && decide (b1 < 0xA0)
            else isCont b1) then
          match bs1 with
          | b2 :: bs2 =>
            if isCont b2 then
              Char.ofNat ((b - 0xE0) * 0x1000 + (b1 - 0x80) * 0x40 + (b2 - 0x80)) ::
                utf8DecodeAux fuel bs2
            else replChar :: utf8DecodeAux fuel bs1
          | [] => [replChar]
        else replChar :: utf8DecodeAux fuel bs
      | [] => [replChar]
    else if b < 0xF5 then
      match bs with
      | b1 :: bs1 =>
        if (if b = 0xF0 then decide (0x90 ≤ b1) && decide (b1 < 0xC0)
            else if b = 0xF4 then decide (0x80 ≤ b1) && decide (b1 < 0x90)
            else isCont b1) then
          match bs1 with
          | b2 :: bs2 =>
            if isCont b2 then
              match bs2 with
              | b3 :: bs3 =>
                if isCont b3 then
                  Char.ofNat ((b - 0xF0) * 0x40000 + (b1 - 0x80) * 0x1000 +
                      (b2 - 0x80) * 0x40 + (b3 - 0x80)) :: utf8DecodeAux fuel bs3
                else replChar :: utf8DecodeAux fuel bs2
              | [] => [replChar]
            else replChar :: utf8DecodeAux fuel bs1
          | [] => [replChar]
        else replChar :: utf8DecodeAux fuel bs
      | [] => [replChar]
    else replChar :: utf8DecodeAux fuel bs

/-- `String::from_utf8_lossy(key).to_string()`. -/
def utf8DecodeLossy (l : List Nat) : List Char := utf8DecodeAux l.length l

/-- UTF-8 encoding of one scalar value (`str::as_bytes`, per character). -/
def utf8EncodeChar (c : Char) : List Nat :=
  let n := c.toNat
  if n < 0x80 then [n]
  else if n < 0x800 then [0xC0 + n / 0x40, 0x80 + n % 0x40]
  else if n < 0x10000 then
    [0xE0 + n / 0x1000, 0x80 + n / 0x40 % 0x40, 0x80 + n % 0x40]
  else
    [0xF0 + n / 0x40000, 0x80 + n / 0x1000 % 0x40, 0x80 + n / 0x40 % 0x40, 0x80 + n % 0x40]

/-- `str::as_bytes` of a modelled Rust string. -/
def utf8Encode (s : RStr) : List Nat := (s.map utf8EncodeChar).flatten

/-- Strip `sep` from the front of `s`, if it is there. -/
def stripSep : List Char → List Char → Option (List Char)
  | [], s => some s
  | _ :: _, [] => none
  | a :: as, b :: bs => if a = b then stripSep as bs else none

theorem stripSep_some {sep s r : List Char} (h : stripSep sep s = some r) :
    s = sep ++ r := by
  induction sep generalizing s with
  | nil => simpa [stripSep] using h
  | cons a as ih =>
    cases s with
    | nil => simp [stripSep] at h
    | cons b bs =>
      by_cases hab : a = b
      · simp [stripSep, hab] at h
        simpa [hab] using ih h
      · simp [stripSep, hab] at h

/-- Find the first occurrence of `sep` in `s`: returns the part before it and
the remainder after it. -/
def splitGo (sep : List Char) : List Char → Option (List Char × List Char)
  | [] => none
  | c :: rest =>
    match stripSep sep (c :: rest) with
    | some r => some ([], r)
    | none =>
      match splitGo sep rest with
      | none => none
      | some (pre, post) => some (c :: pre, post)

theorem splitGo_some {sep : List Char} :
    ∀ {s pre post : List Char}, splitGo sep s = some (pre, post) →
      s = pre ++ sep ++ post := by
  intro s
  induction s with
  | nil => intro pre post h; simp [splitGo] at h
  | cons c rest ih =>
    intro pre post h
    rw [splitGo] at h
    cases hst : stripSep sep (c :: rest) with
    | some r =>
      rw [hst] at h
      simp only [Option.some.injEq, Prod.mk.injEq] at h
      obtain ⟨h1, h2⟩ := h
      subst h1; subst h2
      simpa using stripSep_some hst
    | none =>
      rw [hst] at h
      cases hgo : splitGo sep rest with
      | none => rw [hgo] at h; simp at h
      | some pp =>
        obtain ⟨p1, p2⟩ := pp
        rw [hgo] at h
        simp only [Option.some.injEq, Prod.mk.injEq] at h
        obtain ⟨h1, h2⟩ := h
        subst h1; subst h2
        have h3 := ih hgo
        simp [h3]

/-- Fuel-driven splitting on a non-empty separator (Rust `str::split`,
leftmost-first, keeping empty parts). -/
def splitListAux (sep : List Char) : Nat → List Char → List (List Char)
  | 0, s => [s]
  | fuel + 1, s =>
    match splitGo sep s with
    | none => [s]
    | some (pre, post) => pre :: splitListAux sep fuel post

/-- Rust `str::split(delimiter)` collected into a vector.  For an empty
pattern Rust yields an empty string, every character, and an empty string. -/
def splitList (sep s : List Char) : List (List Char) :=
  if sep = [] then [] :: (s.map fun c => [c]) ++ [[]]
  else splitListAux sep s.length s

/-- Rust `Vec::join(sep)`. -/
def joinList (sep : List Char) : List (List Char) → List Char
  | [] => []
  | [x] => x
  | x :: y :: rest => x ++ sep ++ joinList sep (y :: rest)

theorem joinList_cons {sep x : List Char} {L : List (List Char)} (h : L ≠ []) :
    joinList sep (x :: L) = x ++ sep ++ joinList sep L := by
  cases L with
  | nil => exact absurd rfl h
  | cons y rest => rfl

theorem splitListAux_ne_nil {sep : List Char} (fuel : Nat) (s : List Char) :
    splitListAux sep fuel s ≠ [] := by
  cases fuel with
  | zero => simp [splitListAux]
  | succ n =>
    rw [splitListAux]
    cases h : splitGo sep s with
    | none => simp
    | some pp => obtain ⟨pre, post⟩ := pp; simp

theorem splitList_ne_nil (sep s : List Char) : splitList sep s ≠ [] := by
  rw [splitList]
  by_cases h : sep = []
  · simp [h]
  · simpa [h] using splitListAux_ne_nil s.length s

theorem splitListAux_join {sep : List Char} (hsep : sep ≠ []) :
    ∀ (fuel : Nat) (s : List Char), s.length ≤ fuel →
      joinList sep (splitListAux sep fuel s) = s := by
  intro fuel
  induction fuel with
  | zero => intro s _; simp [splitListAux, joinList]
  | succ n ih =>
    intro s hlen
    rw [splitListAux]
    cases h : splitGo sep s with
    | none => simp [joinList]
    | some pp =>
      obtain ⟨pre, post⟩ := pp
      have hdec := splitGo_some h
      have hpostlen : post.length ≤ n := by
        have hlen2 := congrArg List.length hdec
        simp [List.length_append] at hlen2
        have hslen : 1 ≤ sep.length := by
          cases sep with
          | nil => exact absurd rfl hsep
          | cons a as => simp
        omega
      rw [joinList_cons (splitListAux_ne_nil n post)]
      rw [ih post hpostlen]
      simp [hdec]

theorem joinList_splitList {sep : List Char} (hsep : sep ≠ []) (s : List Char) :
    joinList sep (splitList sep s) = s := by
  rw [splitList]
  simp only [hsep, if_false]
  exact splitListAux_join hsep s.length s le_rfl

/-! ## Data model of `src/app.rs` -/

/-- `KeyNode { children: BTreeMap<String, KeyNode>, has_value: bool }`;
the map is an association list (see the header note on ordering). -/
inductive KeyNode : Type where
  | mk : List (RStr × KeyNode) → Bool → KeyNode

abbrev NodeMap := List (RStr × KeyNode)

def KeyNode.children : KeyNode → NodeMap
  | .mk c _ => c

def KeyNode.has_value : KeyNode → Bool
  | .mk _ v => v

/-- `KeyTree { keys: BTreeMap<String, KeyNode>, total_keys: usize }`. -/
structure KeyTree where
  keys : NodeMap
  total_keys : Nat

/-- `KeyEntry { key: String, has_children: bool }`. -/
structure KeyEntry where
  key : RStr
  has_children : Bool
deriving DecidableEq, Repr

/-- A sled `Tree`: its key/value pairs in iteration (ascending) order. -/
abbrev SledTree := List (Bytes × Bytes)

/-- `sled::Tree::get`: point lookup by exact key. -/
def SledTree.getVal : SledTree → Bytes → Option Bytes
  | [], _ => none
  | kv :: rest, k => if kv.1 = k then some kv.2 else SledTree.getVal rest k

/-- A sled `Db`, as far as the embedded operations use it: the trees it can
open by name.  `open_tree` opens an existing tree or creates an empty one. -/
abbrev SledDb := List (RStr × SledTree)

def openTree : SledDb → RStr → SledTree
  | [], _ => []
  | kv :: rest, name => if kv.1 = name then kv.2 else openTree rest name

/-- The `App` struct of `src/app.rs`, field for field. -/
structure App where
  db : Option SledDb
  sled_trees : List RStr
  current_tree : Option SledTree
  current_path : List RStr
  current_value : Option Bytes
  delimiter : Option RStr
  cached_key_tree : Option KeyTree
  current_key_range : Nat × List KeyEntry

/-- `App::new`. -/
def App.new : App :=
  { db := none
    sled_trees := []
    current_tree := none
    current_path := []
    current_value := none
    delimiter := none
    cached_key_tree := none
    current_key_range := (0, []) }

/-! ## Map and tree primitives used by the operations -/

/-- First binding of `k` in an association map (`BTreeMap::get`). -/
def lookupMap : NodeMap → RStr → Option KeyNode
  | [], _ => none
  | kv :: rest, k => if kv.1 = k then some kv.2 else lookupMap rest k

/-- `BTreeMap::entry(k).or_insert_with(default)` followed by applying `f` to
the entry: updates the first binding of `k`, or appends a fresh default node
passed through `f`. -/
def insertWith : NodeMap → RStr → (KeyNode → KeyNode) → NodeMap
  | [], k, f => [(k, f (.mk [] false))]
  | kv :: rest, k, f =>
    if kv.1 = k then (kv.1, f kv.2) :: rest else kv :: insertWith rest k f

/-- The per-key loop body of `App::build_key_tree`: walk/create one node per
segment, marking the terminal segment's node as value-bearing. -/
def insertPath : NodeMap → List RStr → NodeMap
  | m, [] => m
  | m, [s] => insertWith m s (fun n => .mk n.children true)
  | m, s :: t :: ts =>
    insertWith m s (fun n => .mk (insertPath n.children (t :: ts)) n.has_value)

/-- Walk the node map along a whole segment path, returning the node the path
ends at (used to state properties of the built index). -/
def lookupPath : NodeMap → List RStr → Option KeyNode
  | _, [] => none
  | m, [s] => lookupMap m s
  | m, s :: t :: ts =>
    match lookupMap m s with
    | some n => lookupPath n.children (t :: ts)
    | none => none

/-- The cursor walk shared by `count_visible_keys`, `get_keys_range` and
`total_keys`: follow `current_path` one segment at a time, yielding the
children map at the resolved node, or `none` if a segment is absent. -/
def resolveChildren : NodeMap → List RStr → Option NodeMap
  | m, [] => some m
  | m, s :: rest =>
    match lookupMap m s with
    | some n => resolveChildren n.children rest
    | none => none

/-! ## The operations of `impl App` -/

/-- `App::count_visible_keys` (src/app.rs:83-101). -/
def count_visible_keys (a : App) (tree : KeyTree) : Nat :=
  match a.delimiter with
  | none =>
    match a.current_tree with
    | some t => t.length
    | none => 0
  | some _ =>
    match resolveChildren tree.keys a.current_path with
    | some m => m.length
    | none => 0

/-- The index-building fold of `App::build_key_tree`: iterate every key of
the keyspace in order, split its lossily-decoded string form on the
delimiter, and insert the segment path. -/
def buildMap (d : RStr) (t : SledTree) : NodeMap :=
  t.foldl (fun acc kv => insertPath acc (splitList d (utf8DecodeLossy kv.1))) []

/-- `App::build_key_tree` (src/app.rs:49-81).  Only acts when a keyspace is
selected and a delimiter is configured; the iteration itself cannot fail in
the model (sled iteration errors are I/O, outside the embedding). -/
def build_key_tree (a : App) : App :=
  match a.current_tree, a.delimiter with
  | some t, some d =>
    let m := buildMap d t
    let kt0 : KeyTree := { keys := m, total_keys := 0 }
    let kt : KeyTree := { keys := m, total_keys := count_visible_keys a kt0 }
    { a with cached_key_tree := some kt }
  | _, _ => a

/-- Projection of one child to a `KeyEntry` in the delimited branch of
`App::get_keys_range`. -/
def projEntry (kv : RStr × KeyNode) : KeyEntry :=
  { key := kv.1, has_children := !(kv.2.children.isEmpty) }

/-- `App::get_keys_range` (src/app.rs:103-148).  Returns the updated `App`
(the method stores the window into `current_key_range`) and the window. -/
def get_keys_range (a : App) (offset count : Nat) : App × List KeyEntry :=
  match a.delimiter with
  | none =>
    match a.current_tree with
    | some t =>
      let keys := ((t.drop offset).take count).map
        (fun kv => ({ key := utf8DecodeLossy kv.1, has_children := false } : KeyEntry))
      ({ a with current_key_range := (offset, keys) }, keys)
    | none => (a, [])
  | some _ =>
    match a.cached_key_tree with
    | some kt =>
      match resolveChildren kt.keys a.current_path with
      | some m =>
        let keys := ((m.drop offset).take count).map projEntry
        ({ a with current_key_range := (offset, keys) }, keys)
      | none => (a, [])
    | none => (a, [])

/-- `App::total_keys` (src/app.rs:150-164). -/
def total_keys (a : App) : Nat :=
  match a.cached_key_tree with
  | some kt =>
    match resolveChildren kt.keys a.current_path with
    | some m => m.length
    | none => 0
  | none => 0

/-- `App::select_tree` (src/app.rs:179-186).  `self.sled_trees[index]` is a
panicking `Vec` index, modelled as `none` when out of bounds. -/
def select_tree (a : App) (index : Nat) : Option App :=
  match a.db with
  | some db =>
    match a.sled_trees.get? index with
    | some name =>
      some { a with current_tree := some (openTree db name), current_path := [] }
    | none => none
  | none => some a

/-- `App::get_value` (src/app.rs:235-247).  `self.current_key_range.1[index]`
is a panicking `Vec` index, modelled as `none` when out of bounds.  Note the
join separator is the hard-coded `"/"`, not the configured delimiter. -/
def get_value (a : App) (index : Nat) : Option App :=
  match a.current_tree with
  | some t =>
    match (a.current_key_range.2).get? index with
    | some entry =>
      let new_path := a.current_path ++ [entry.key]
      let full_key := utf8Encode (joinList ['/'] new_path)
      match SledTree.getVal t full_key with
      | some v => some { a with current_value := some v }
      | none => some a
    | none => none
  | none => some a

/-- `App::go_back_in_path` (src/app.rs:250-256). -/
def go_back_in_path (a : App) : App :=
  if !a.current_path.isEmpty && a.current_path.length > 1 then
    { a with current_path := a.current_path.dropLast, current_value := none }
  else a

/-! ## The Backspace branch of `TuiApp::run` (src/tui_app.rs:416-431)

Only the `App`-level effects and the mode switch are modelled: the handler's
follow-up calls reference `App` members (`current_keys`, relisting helpers)
that do not exist in `src/app.rs`, so the crate as given does not compile and
those calls have no defined behaviour to embed. -/

structure TuiState where
  app : App
  list_offset : Nat
  view_trees : Bool

/-- `KeyCode::Backspace` handling: when the cursor has more than one segment
it delegates to `go_back_in_path`; otherwise it switches `view_mode` back to
tree (keyspace) selection and clears the current value.  `list_offset` is not
touched on either branch. -/
def backspace_handler (s : TuiState) : TuiState :=
  if s.app.current_path.length > 1 then
    { s with app := go_back_in_path s.app }
  else
    { s with app := { s.app with current_value := none }, view_trees := true }

/-! ## Derived notions used to state the windowing claims -/

/-- All entries at the currently resolved hierarchy level: every key of the
keyspace in flat mode, the children of the cursor's node in delimited mode
(empty when nothing is selected, cached, or resolvable).  `get_keys_range`
windows are exactly contiguous slices of this list. -/
def level_entries (a : App) : List KeyEntry :=
  match a.delimiter with
  | none =>
    match a.current_tree with
    | some t =>
      t.map (fun kv => ({ key := utf8DecodeLossy kv.1, has_children := false } : KeyEntry))
    | none => []
  | some _ =>
    match a.cached_key_tree with
    | some kt =>
      match resolveChildren kt.keys a.current_path with
      | some m => m.map projEntry
      | none => []
    | none => []

/-- Repeated `get_keys_range` calls, each starting from the state the
previous call produced, with the returned windows concatenated. -/
def windows_seq (a : App) : List (Nat × Nat) → List KeyEntry
  | [] => []
  | oc :: rest =>
    let r := get_keys_range a oc.1 oc.2
    r.2 ++ windows_seq r.1 rest

/-- Contiguous, non-overlapping offset ranges starting at `off`, one per
requested count. -/
def ranges_from (off : Nat) : List Nat → List (Nat × Nat)
  | [] => []
  | c :: cs => (off, c) :: ranges_from (off + c) cs

/-! ## Lemmas about the association-map primitives -/

theorem insertWith_ne_nil (m : NodeMap) (k : RStr) (f : KeyNode → KeyNode) :
    insertWith m k f ≠ [] := by
  cases m with
  | nil => simp [insertWith]
  | cons kv rest =>
    rw [insertWith]
    by_cases h : kv.1 = k <;> simp [h]

theorem lookupMap_insertWith_self (m : NodeMap) (k : RStr) (f : KeyNode → KeyNode) :
    lookupMap (insertWith m k f) k = some (f ((lookupMap m k).getD (.mk [] false))) := by
  induction m with
  | nil => simp [insertWith, lookupMap]
  | cons kv rest ih =>
    by_cases h : kv.1 = k
    · simp [insertWith, lookupMap, h]
    · simp [insertWith, lookupMap, h, ih]


theorem lookupMap_insertWith_other (m : NodeMap) {k k' : RStr} (f : KeyNode → KeyNode)
    (hne : k' ≠ k) : lookupMap (insertWith m k f) k' = lookupMap m k' := by
  induction m with
  | nil => simp [insertWith, lookupMap, Ne.symm hne]
  | cons kv rest ih =>
    by_cases h : kv.1 = k
    · have h2 : kv.1 ≠ k' := by rw [h]; exact Ne.symm hne
      simp [insertWith, lookupMap, h, h2, Ne.symm hne]
    · by_cases h3 : kv.1 = k'
      · simp [insertWith, lookupMap, h, h3, hne]
      · simp [insertWith, lookupMap, h, h3, ih]

theorem lookupMap_mem {m : NodeMap} {k : RStr} {n : KeyNode}
    (h : lookupMap m k = some n) : (k, n) ∈ m := by
  induction m with
  | nil => simp [lookupMap] at h
  | cons kv rest ih =>
    obtain ⟨a, b⟩ := kv
    by_cases h2 : a = k
    · simp only [lookupMap, h2, if_pos] at h
      simp only [Option.some.injEq] at h
      subst h2
      subst h
      exact List.mem_cons_self _ _
    · simp only [lookupMap, h2, if_false, if_neg] at h
      exact List.mem_cons_of_mem _ (ih h)

theorem insertPath_ne_nil {p : List RStr} (hp : p ≠ []) (m : NodeMap) :
    insertPath m p ≠ [] := by
  match p with
  | [] => exact absurd rfl hp
  | [s] => exact insertWith_ne_nil m s _
  | s :: t :: ts => exact insertWith_ne_nil m s _

theorem lookupPath_cons (m : NodeMap) (s : RStr) {l : List RStr} (hl : l ≠ []) :
    lookupPath m (s :: l) = (lookupMap m s).bind (fun n => lookupPath n.children l) := by
  cases l with
  | nil => exact absurd rfl hl
  | cons t ts => cases h : lookupMap m s <;> simp [lookupPath, h]

theorem resolveChildren_cons (m : NodeMap) (s : RStr) (rest : List RStr) :
    resolveChildren m (s :: rest)
      = (lookupMap m s).bind (fun n => resolveChildren n.children rest) := by
  cases h : lookupMap m s <;> simp [resolveChildren, h]

/-! ## Lemmas about `insertPath`: what one key's insertion establishes and
what any later insertion preserves -/

theorem lookupPath_insertPath_self :
    ∀ (p : List RStr), p ≠ [] → ∀ (m : NodeMap),
      ∃ n, lookupPath (insertPath m p) p = some n ∧ n.has_value = true := by
  intro p
  induction p with
  | nil => intro h; exact absurd rfl h
  | cons s rest ih =>
    intro _ m
    cases rest with
    | nil =>
      refine ⟨.mk ((lookupMap m s).getD (.mk [] false)).children true, ?_, rfl⟩
      exact lookupMap_insertWith_self m s _
    | cons t ts =>
      obtain ⟨n, hn, hv⟩ := ih (by simp) (((lookupMap m s).getD (.mk [] false)).children)
      refine ⟨n, ?_, hv⟩
      have hl := lookupMap_insertWith_self m s
        (fun n => .mk (insertPath n.children (t :: ts)) n.has_value)
      show lookupPath
        (insertWith m s (fun n => .mk (insertPath n.children (t :: ts)) n.has_value))
        (s :: t :: ts) = some n
      rw [lookupPath_cons _ _ (by simp), hl]
      simpa [KeyNode.children] using hn

theorem lookupPath_insertPath_extends :
    ∀ (q : List RStr), q ≠ [] → ∀ (r : RStr) (rs : List RStr) (m : NodeMap),
      ∃ n, lookupPath (insertPath m (q ++ r :: rs)) q = some n ∧ n.children ≠ [] := by
  intro q
  induction q with
  | nil => intro h; exact absurd rfl h
  | cons s rest ih =>
    intro _ r rs m
    cases rest with
    | nil =>
      refine ⟨.mk (insertPath ((lookupMap m s).getD (.mk [] false)).children (r :: rs))
          ((lookupMap m s).getD (.mk [] false)).has_value, ?_, ?_⟩
      · exact lookupMap_insertWith_self m s _
      · exact insertPath_ne_nil (by simp) _
    | cons t ts =>
      obtain ⟨n, hn, hc⟩ := ih (by simp) r rs (((lookupMap m s).getD (.mk [] false)).children)
      refine ⟨n, ?_, hc⟩
      have hl := lookupMap_insertWith_self m s
        (fun n => .mk (insertPath n.children ((t :: ts) ++ r :: rs)) n.has_value)
      show lookupPath
        (insertWith m s
          (fun n => .mk (insertPath n.children ((t :: ts) ++ r :: rs)) n.has_value))
        (s :: t :: ts) = some n
      rw [lookupPath_cons _ _ (by simp), hl]
      simpa [KeyNode.children] using hn

theorem lookupPath_insertPath_pres :
    ∀ (q : List RStr) (p : List RStr) (m : NodeMap) (n : KeyNode),
      lookupPath m q = some n →
      ∃ n', lookupPath (insertPath m p) q = some n'
        ∧ (n.has_value = true → n'.has_value = true)
        ∧ (n.children ≠ [] → n'.children ≠ []) := by
  intro q
  induction q with
  | nil => intro p m n h; simp [lookupPath] at h
  | cons s rest ih =>
    intro p m n h
    cases rest with
    | nil =>
      have hm : lookupMap m s = some n := h
      cases p with
      | nil => exact ⟨n, hm, fun hv => hv, fun hc => hc⟩
      | cons t ts0 =>
        cases ts0 with
        | nil =>
          by_cases hts : t = s
          · subst hts
            have hl := lookupMap_insertWith_self m t (fun n => .mk n.children true)
            rw [hm] at hl
            refine ⟨.mk n.children true, ?_, fun _ => rfl, fun hc => hc⟩
            show lookupMap (insertWith m t (fun n => .mk n.children true)) t
              = some (.mk n.children true)
            simpa using hl
          · have hl := lookupMap_insertWith_other m
              (f := fun n => .mk n.children true) (Ne.symm hts)
            refine ⟨n, ?_, fun hv => hv, fun hc => hc⟩
            show lookupMap (insertWith m t (fun n => .mk n.children true)) s = some n
            rw [hl]; exact hm
        | cons t2 ts =>
          by_cases hts : t = s
          · subst hts
            have hl := lookupMap_insertWith_self m t
              (fun n => .mk (insertPath n.children (t2 :: ts)) n.has_value)
            rw [hm] at hl
            refine ⟨.mk (insertPath n.children (t2 :: ts)) n.has_value, ?_,
              fun hv => hv, fun _ => insertPath_ne_nil (by simp) _⟩
            show lookupMap
                (insertWith m t
                  (fun n => .mk (insertPath n.children (t2 :: ts)) n.has_value)) t
              = some (.mk (insertPath n.children (t2 :: ts)) n.has_value)
            simpa using hl
          · have hl := lookupMap_insertWith_other m
              (f := fun n => .mk (insertPath n.children (t2 :: ts)) n.has_value)
              (Ne.symm hts)
            refine ⟨n, ?_, fun hv => hv, fun hc => hc⟩
            show lookupMap
                (insertWith m t
                  (fun n => .mk (insertPath n.children (t2 :: ts)) n.has_value)) s = some n
            rw [hl]; exact hm
    | cons s2 ss =>
      rw [lookupPath_cons _ _ (by simp)] at h
      cases hm : lookupMap m s with
      | none => rw [hm] at h; simp at h
      | some n0 =>
        rw [hm] at h
        simp only [Option.some_bind] at h
        cases p with
        | nil =>
          refine ⟨n, ?_, fun hv => hv, fun hc => hc⟩
          show lookupPath m (s :: s2 :: ss) = some n
          rw [lookupPath_cons _ _ (by simp), hm]
          simpa using h
        | cons t ts0 =>
          cases ts0 with
          | nil =>
            by_cases hts : t = s
            · subst hts
              have hl := lookupMap_insertWith_self m t (fun n => .mk n.children true)
              rw [hm] at hl
              simp only [Option.getD_some] at hl
              refine ⟨n, ?_, fun hv => hv, fun hc => hc⟩
              show lookupPath (insertWith m t (fun n => .mk n.children true))
                (t :: s2 :: ss) = some n
              rw [lookupPath_cons _ _ (by simp), hl]
              simpa [KeyNode.children] using h
            · have hl := lookupMap_insertWith_other m
                (f := fun n => .mk n.children true) (Ne.symm hts)
              refine ⟨n, ?_, fun hv => hv, fun hc => hc⟩
              show lookupPath (insertWith m t (fun n => .mk n.children true))
                (s :: s2 :: ss) = some n
              rw [lookupPath_cons _ _ (by simp), hl, hm]
              simpa using h
          | cons t2 ts =>
            by_cases hts : t = s
            · subst hts
              have hl := lookupMap_insertWith_self m t
                (fun n => .mk (insertPath n.children (t2 :: ts)) n.has_value)
              rw [hm] at hl
              simp only [Option.getD_some] at hl
              obtain ⟨n', hn', hv', hc'⟩ := ih (t2 :: ts) n0.children n h
              refine ⟨n', ?_, hv', hc'⟩
              show lookupPath
                  (insertWith m t
                    (fun n => .mk (insertPath n.children (t2 :: ts)) n.has_value))
                  (t :: s2 :: ss) = some n'
              rw [lookupPath_cons _ _ (by simp), hl]
              simpa [KeyNode.children] using hn'
            · have hl := lookupMap_insertWith_other m
                (f := fun n => .mk (insertPath n.children (t2 :: ts)) n.has_value)
                (Ne.symm hts)
              refine ⟨n, ?_, fun hv => hv, fun hc => hc⟩
              show lookupPath
                  (insertWith m t
                    (fun n => .mk (insertPath n.children (t2 :: ts)) n.has_value))
                  (s :: s2 :: ss) = some n
              rw [lookupPath_cons _ _ (by simp), hl, hm]
              simpa using h

/-! ## Lemmas about the index-building fold -/

theorem foldl_insertPath_pres (d : RStr) (Φ : NodeMap → Prop)
    (hp : ∀ m p, Φ m → Φ (insertPath m p)) :
    ∀ (l : SledTree) (m : NodeMap), Φ m →
      Φ (l.foldl (fun acc kv => insertPath acc (splitList d (utf8DecodeLossy kv.1))) m) := by
  intro l
  induction l with
  | nil => intro m h; simpa using h
  | cons kv rest ih =>
    intro m h
    simp only [List.foldl_cons]
    exact ih _ (hp _ _ h)

theorem foldl_insertPath_mem (d : RStr) (Φ : NodeMap → Prop)
    (hp : ∀ m p, Φ m → Φ (insertPath m p)) (k : Bytes)
    (hest : ∀ m : NodeMap, Φ (insertPath m (splitList d (utf8DecodeLossy k)))) :
    ∀ (l : SledTree) (m : NodeMap), k ∈ l.map Prod.fst →
      Φ (l.foldl (fun acc kv => insertPath acc (splitList d (utf8DecodeLossy kv.1))) m) := by
  intro l
  induction l with
  | nil => intro m h; simp at h
  | cons kv rest ih =>
    intro m h
    simp only [List.map_cons, List.mem_cons] at h
    simp only [List.foldl_cons]
    rcases h with h | h
    · subst h
      exact foldl_insertPath_pres d Φ hp rest _ (hest m)
    · exact ih _ h

/-- Every key of the keyspace ends at a value-bearing node of the built
index, at the path given by splitting its lossily-decoded string form. -/
theorem buildMap_has_value {d : RStr} {t : SledTree} {k : Bytes}
    (hk : k ∈ t.map Prod.fst) :
    ∃ n, lookupPath (buildMap d t) (splitList d (utf8DecodeLossy k)) = some n
      ∧ n.has_value = true := by
  refine foldl_insertPath_mem d
    (fun m => ∃ n, lookupPath m (splitList d (utf8DecodeLossy k)) = some n
      ∧ n.has_value = true) ?_ k ?_ t [] hk
  · rintro m p ⟨n, hn, hv⟩
    obtain ⟨n', hn', hv', _⟩ := lookupPath_insertPath_pres _ p m n hn
    exact ⟨n', hn', hv' hv⟩
  · intro m
    exact lookupPath_insertPath_self _ (splitList_ne_nil _ _) m

/-- If one key's segment path is a proper prefix of another key's segment
path, the node the shorter path ends at has children in the built index. -/
theorem buildMap_children_of_extends {d : RStr} {t : SledTree} {k2 : Bytes}
    (hk2 : k2 ∈ t.map Prod.fst) {q : List RStr} (hq : q ≠ [])
    {r : RStr} {rs : List RStr}
    (hsplit : splitList d (utf8DecodeLossy k2) = q ++ r :: rs) :
    ∃ n, lookupPath (buildMap d t) q = some n ∧ n.children ≠ [] := by
  refine foldl_insertPath_mem d
    (fun m => ∃ n, lookupPath m q = some n ∧ n.children ≠ []) ?_ k2 ?_ t [] hk2
  · rintro m p ⟨n, hn, hc⟩
    obtain ⟨n', hn', _, hc'⟩ := lookupPath_insertPath_pres _ p m n hn
    exact ⟨n', hn', hc' hc⟩
  · intro m
    rw [hsplit]
    exact lookupPath_insertPath_extends q hq r rs m

/-! ## Connecting `lookupPath` with the cursor walk `resolveChildren` -/

theorem lookupPath_append_last :
    ∀ (q : List RStr) (s : RStr) (m : NodeMap),
      lookupPath m (q ++ [s]) = (resolveChildren m q).bind (fun mm => lookupMap mm s) := by
  intro q
  induction q with
  | nil => intro s m; simp [lookupPath, resolveChildren]
  | cons a q' ih =>
    intro s m
    have hne : q' ++ [s] ≠ [] := by simp
    rw [show (a :: q') ++ [s] = a :: (q' ++ [s]) from rfl,
      lookupPath_cons _ _ hne, resolveChildren_cons]
    cases hm : lookupMap m a with
    | none => simp
    | some n => simp [ih]

/-! ## Lemmas about the sled tree model -/

theorem getVal_isSome_of_mem {t : SledTree} {k v : Bytes} (h : (k, v) ∈ t) :
    ∃ w, SledTree.getVal t k = some w := by
  induction t with
  | nil => simp at h
  | cons kv rest ih =>
    by_cases h2 : kv.1 = k
    · exact ⟨kv.2, by simp [SledTree.getVal, h2]⟩
    · rcases List.mem_cons.mp h with h3 | h3
      · exact absurd (congrArg Prod.fst h3.symm) h2
      · obtain ⟨w, hw⟩ := ih h3
        exact ⟨w, by simp [SledTree.getVal, h2, hw]⟩

/-! ## Window lemmas -/

theorem level_entries_set_range (a : App) (x : Nat × List KeyEntry) :
    level_entries { a with current_key_range := x } = level_entries a := rfl

theorem get_keys_range_snd (a : App) (offset count : Nat) :
    (get_keys_range a offset count).2 = ((level_entries a).drop offset).take count := by
  rw [get_keys_range, level_entries]
  cases hd : a.delimiter with
  | none =>
    cases ht : a.current_tree with
    | none => simp
    | some t => simp [List.map_take, List.map_drop]
  | some d =>
    cases hc : a.cached_key_tree with
    | none => simp
    | some kt =>
      cases hr : resolveChildren kt.keys a.current_path with
      | none => simp [hr]
      | some m => simp [hr, List.map_take, List.map_drop]

theorem get_keys_range_fst_level (a : App) (offset count : Nat) :
    level_entries (get_keys_range a offset count).1 = level_entries a := by
  rw [get_keys_range]
  cases hd : a.delimiter with
  | none =>
    cases ht : a.current_tree with
    | none => simp
    | some t => simp [level_entries, hd, ht]
  | some d =>
    cases hc : a.cached_key_tree with
    | none => simp
    | some kt =>
      cases hr : resolveChildren kt.keys a.current_path with
      | none => simp [hr]
      | some m => simp [hr, level_entries, hd, hc]

theorem windows_seq_eq :
    ∀ (cs : List Nat) (a : App) (off : Nat),
      windows_seq a (ranges_from off cs) = ((level_entries a).drop off).take cs.sum := by
  intro cs
  induction cs with
  | nil => intro a off; simp [ranges_from, windows_seq]
  | cons c cs' ih =>
    intro a off
    rw [ranges_from, windows_seq, get_keys_range_snd, ih, get_keys_range_fst_level,
      List.sum_cons, List.take_add, List.drop_drop]

/-! ## Unfolding lemmas for the operations -/

theorem build_key_tree_eq (a : App) {t : SledTree} {d : RStr}
    (ht : a.current_tree = some t) (hd : a.delimiter = some d) :
    build_key_tree a
      = { a with cached_key_tree := some (KeyTree.mk (buildMap d t)
            (count_visible_keys a (KeyTree.mk (buildMap d t) 0))) } := by
  simp only [build_key_tree, ht, hd]

theorem get_keys_range_delim (a : App) {d : RStr} {kt : KeyTree} {m : NodeMap}
    (hd : a.delimiter = some d) (hc : a.cached_key_tree = some kt)
    (hr : resolveChildren kt.keys a.current_path = some m) (off cnt : Nat) :
    get_keys_range a off cnt
      = ({ a with current_key_range := (off, ((m.drop off).take cnt).map projEntry) },
         ((m.drop off).take cnt).map projEntry) := by
  simp only [get_keys_range, hd, hc, hr]

theorem total_keys_resolved (a : App) {kt : KeyTree} {m : NodeMap}
    (hc : a.cached_key_tree = some kt)
    (hr : resolveChildren kt.keys a.current_path = some m) :
    total_keys a = m.length := by
  simp only [total_keys, hc, hr]

theorem get_value_hit (a : App) {t : SledTree} {e : KeyEntry} {v : Bytes} (i : Nat)
    (ht : a.current_tree = some t)
    (he : (a.current_key_range.2).get? i = some e)
    (hv : SledTree.getVal t (utf8Encode (joinList ['/'] (a.current_path ++ [e.key])))
      = some v) :
    get_value a i = some { a with current_value := some v } := by
  simp only [get_value, ht, he, hv]

theorem get_value_miss (a : App) {t : SledTree} {e : KeyEntry} (i : Nat)
    (ht : a.current_tree = some t)
    (he : (a.current_key_range.2).get? i = some e)
    (hv : SledTree.getVal t (utf8Encode (joinList ['/'] (a.current_path ++ [e.key])))
      = none) :
    get_value a i = some a := by
  simp only [get_value, ht, he, hv]

/-! ## Claim C1 -/

/-- Keyspace `{ "a:b" ↦ [5] }` with configured delimiter `":"`. -/
def c1Tree : SledTree := [([97, 58, 98], [5])]

def c1App : App :=
  { App.new with current_tree := some c1Tree, delimiter := some [':'] }

/-- After building the index, descend to cursor `["a"]` and fetch the level's
window (it contains the single entry `"b"`). -/
def c1AppAt : App := { build_key_tree c1App with current_path := [['a']] }

def c1Window : App × List KeyEntry := get_keys_range c1AppAt 0 1

/-- Claim C1, code bug, evaluated at the failing input: with delimiter `":"`
and stored key `"a:b"`, the index exposes entry `"b"` under cursor `["a"]`,
but `get_value` joins the path with the hard-coded `"/"` (src/app.rs:240),
looks up `"a/b"` (bytes `[97, 47, 98]`), finds nothing, and leaves
`current_value` empty — although the store binds `"a:b"` to `[5]`.  The
claimed byte-for-byte round trip therefore fails for every delimiter other
than `"/"`. -/
theorem c1_get_value_joins_with_slash_not_delimiter :
    c1Window.2 = [{ key := ['b'], has_children := false }]
    ∧ (get_value c1Window.1 0).map App.current_value = some none
    ∧ SledTree.getVal c1Tree [97, 58, 98] = some [5]
    ∧ utf8Encode (joinList ['/'] ([['a']] ++ [['b']])) = [97, 47, 98] := by
  refine ⟨by decide, by decide, by decide, by decide⟩

/-! ## Claim C2 -/

/-- Flat mode: no delimiter configured, a selected keyspace with one key, and
no cached index (the running program never invokes `build_key_tree`, and
`select_tree` does not either). -/
def c2App : App := { App.new with current_tree := some [([0], [7])] }

/-- Claim C2, code bug, evaluated at the failing input: in flat mode
`total_keys` returns `0` because it reads only the cached hierarchical index
(src/app.rs:150-164), never the keyspace's key count — although the selected
keyspace holds one key and the flat branch of `count_visible_keys`
(src/app.rs:83-89) returns that count, as the spec requires. -/
theorem c2_total_keys_ignores_flat_mode :
    total_keys c2App = 0
    ∧ c2App.delimiter = none
    ∧ (c2App.current_tree.map List.length) = some 1
    ∧ count_visible_keys c2App { keys := [], total_keys := 0 } = 1 := by
  refine ⟨by decide, by decide, by decide, by decide⟩

/-! ## Claim C3 -/

/-- Keyspace A `{ "x" ↦ [1] }`, keyspace B `{ "y" ↦ [2] }`. -/
def c3TreeA : SledTree := [([120], [1])]

def c3TreeB : SledTree := [([121], [2])]

/-- State while browsing keyspace A with a cached index built for A and a
non-zero window offset; keyspace B is available under name `"b"`. -/
def c3App : App :=
  { App.new with
      db := some [(['b'], c3TreeB)]
      sled_trees := [['b']]
      current_tree := some c3TreeA
      current_path := [['x']]
      delimiter := some ['/']
      cached_key_tree :=
        (build_key_tree
          { App.new with current_tree := some c3TreeA, delimiter := some ['/'] }).cached_key_tree
      current_key_range := (7, []) }

def c3After : Option App := select_tree c3App 0

/-- Claim C3, code bug, evaluated at the failing input: `select_tree`
(src/app.rs:179-186) opens the new keyspace and clears the cursor, but it
neither discards nor rebuilds `cached_key_tree` (no call to `build_key_tree`
exists anywhere) and does not reset the window offset: after switching to
keyspace B the cached index still resolves `"x"`, a key of keyspace A only,
and the offset is still 7. -/
theorem c3_select_tree_keeps_stale_index_and_offset :
    (c3After.map App.current_tree) = some (some c3TreeB)
    ∧ (c3After.map App.current_path) = some []
    ∧ (c3After.map fun a =>
        a.cached_key_tree.map fun kt => (lookupPath kt.keys [['x']]).isSome)
      = some (some true)
    ∧ SledTree.getVal c3TreeB [120] = none
    ∧ (c3After.map fun a => a.current_key_range.1) = some 7 := by
  refine ⟨by decide, by decide, by decide, by decide, by decide⟩

/-! ## Claim C4 -/

/-- A selected (empty) keyspace with an empty cached window. -/
def c4App : App := { App.new with current_tree := some [] }

/-- Claim C4, code bug, evaluated at the failing input: with a keyspace
selected and an empty cached window, `get_value(0)` indexes
`current_key_range.1[0]` out of bounds (src/app.rs:237) — a Rust panic,
modelled as `none` — instead of the no-op the claim and §7 of the spec
require. -/
theorem c4_get_value_out_of_range_panics :
    (get_value c4App 0).isNone = true
    ∧ (c4App.current_key_range.2).length = 0
    ∧ c4App.current_tree.isSome = true := by
  refine ⟨by decide, by decide, by decide⟩

/-! ## Claim C5 -/

/-- A cursor of length one, with a value displayed. -/
def c5App : App := { App.new with current_path := [['a']], current_value := some [9] }

/-- Claim C5, counterexample: the claim says a non-empty cursor — including a
cursor of length 1 — is popped to its parent.  On the cursor `["a"]`,
`go_back_in_path` (src/app.rs:250-256) requires `len() > 1` and therefore
leaves the cursor untouched: the result is still `["a"]`, not the claimed
`[]`. -/
theorem c5_cex :
    c5App.current_path ≠ []
    ∧ (go_back_in_path c5App).current_path = [['a']]
    ∧ (go_back_in_path c5App).current_path ≠ c5App.current_path.dropLast := by
  refine ⟨by decide, by decide, by decide⟩

/-- Claim C5, amended: `go_back_in_path` pops the last cursor segment (and
clears the current value) only when the cursor has at least two segments, and
never touches the cached window/offset; the Backspace handler signals a
return to keyspace-selection mode exactly when the cursor has at most one
segment (not only when it is empty), and never resets `list_offset`. -/
theorem c5_backspace_pops_only_below_depth_two (s : TuiState) :
    ((go_back_in_path s.app).current_path
      = if 1 < s.app.current_path.length then s.app.current_path.dropLast
        else s.app.current_path)
    ∧ ((go_back_in_path s.app).current_value
      = if 1 < s.app.current_path.length then none else s.app.current_value)
    ∧ (go_back_in_path s.app).current_key_range = s.app.current_key_range
    ∧ ((backspace_handler s).view_trees
      = if 1 < s.app.current_path.length then s.view_trees else true)
    ∧ (backspace_handler s).list_offset = s.list_offset := by
  by_cases h : 1 < s.app.current_path.length
  · have hne : s.app.current_path.isEmpty = false := by
      cases hp : s.app.current_path with
      | nil => rw [hp] at h; simp at h
      | cons x xs => rfl
    simp [go_back_in_path, backspace_handler, h, hne]
  · simp [go_back_in_path, backspace_handler, h]

/-! ## Claim C6 -/

/-- Keyspace containing the single key `[0xFF]`, which is not valid UTF-8. -/
def c6Tree : SledTree := [([0xFF], [1])]

def c6App : App := { App.new with current_tree := some c6Tree, delimiter := some ['/'] }

/-- Claim C6, counterexample: the claim says a key whose bytes cannot be
decoded is excluded from the index.  `build_key_tree` uses
`String::from_utf8_lossy` (src/app.rs:60), which never fails: the key
`[0xFF]` decodes to `"�"` and a value-bearing node derived from it IS
present in the built index. -/
theorem c6_cex :
    utf8DecodeLossy [0xFF] = [replChar]
    ∧ ((build_key_tree c6App).cached_key_tree.map fun kt =>
        (lookupPath kt.keys [[replChar]]).map KeyNode.has_value)
      = some (some (some true)) := by
  refine ⟨by decide, by decide⟩

/-- Claim C6, amended: no key is ever excluded and the build never aborts —
every key of the keyspace, decodable or not, is decoded lossily (ill-formed
byte sequences become U+FFFD) and ends at a value-bearing node of the built
index at the path given by splitting its decoded string form. -/
theorem c6_build_indexes_every_key (a : App) (t : SledTree) (d : RStr) (k : Bytes)
    (ht : a.current_tree = some t) (hd : a.delimiter = some d)
    (hk : k ∈ t.map Prod.fst) :
    ∃ kt n, (build_key_tree a).cached_key_tree = some kt
      ∧ lookupPath kt.keys (splitList d (utf8DecodeLossy k)) = some n
      ∧ n.has_value = true := by
  obtain ⟨n, hn, hv⟩ := buildMap_has_value (d := d) (t := t) hk
  refine ⟨KeyTree.mk (buildMap d t) (count_visible_keys a (KeyTree.mk (buildMap d t) 0)),
    n, ?_, hn, hv⟩
  rw [build_key_tree_eq a ht hd]

/-- Witness for the amended C6 at the undecodable key `[0xFF]`. -/
theorem c6_build_indexes_every_key_witness :
    (c6App.current_tree = some c6Tree ∧ c6App.delimiter = some ['/']
      ∧ [0xFF] ∈ c6Tree.map Prod.fst)
    ∧ ∃ kt n, (build_key_tree c6App).cached_key_tree = some kt
      ∧ lookupPath kt.keys (splitList ['/'] (utf8DecodeLossy [0xFF])) = some n
      ∧ n.has_value = true :=
  ⟨⟨rfl, rfl, by decide⟩,
   c6_build_indexes_every_key c6App c6Tree ['/'] [0xFF] rfl rfl (by decide)⟩

/-! ## Claim C7 -/

/-- Store `{ "z" ↦ [3] }`; the cached window shows an entry `"q"` (say, left
over from index-build time) whose key has since no binding in the store; a
previous value `[9]` is on display. -/
def c7Store : SledTree := [([122], [3])]

def c7App : App :=
  { App.new with
      current_tree := some c7Store
      current_value := some [9]
      current_key_range := (0, [{ key := ['q'], has_children := false }]) }

/-- Claim C7, counterexample: the claim says that after a `get_value` call
that finds no binding, the reported current value is absent.  In fact
`get_value` (src/app.rs:242-244) only overwrites `current_value` on a hit:
after the miss the reported current value is still the old `[9]`, not
absent. -/
theorem c7_cex :
    SledTree.getVal c7Store
      (utf8Encode (joinList ['/'] (c7App.current_path ++ [['q']]))) = none
    ∧ (get_value c7App 0).map App.current_value = some (some [9])
    ∧ (get_value c7App 0).map App.current_value ≠ some none := by
  refine ⟨by decide, by decide, by decide⟩

/-- Claim C7, amended: for every cursor and in-range entry whose
reconstructed fully-qualified key has no binding in the store — including a
key deleted after the index was built — `get_value` succeeds (no error, no
panic) and leaves the whole state unchanged; in particular `current_value`
keeps its previous content rather than being set to absent. -/
theorem c7_get_value_miss_is_ok_and_keeps_value (a : App) (t : SledTree)
    (i : Nat) (e : KeyEntry)
    (ht : a.current_tree = some t)
    (he : (a.current_key_range.2).get? i = some e)
    (hmiss : SledTree.getVal t
      (utf8Encode (joinList ['/'] (a.current_path ++ [e.key]))) = none) :
    get_value a i = some a :=
  get_value_miss a i ht he hmiss

/-- Witness for the amended C7 at the concrete miss state. -/
theorem c7_get_value_miss_witness :
    (c7App.current_tree = some c7Store
      ∧ (c7App.current_key_range.2).get? 0
          = some { key := ['q'], has_children := false }
      ∧ SledTree.getVal c7Store
          (utf8Encode (joinList ['/'] (c7App.current_path
            ++ [(KeyEntry.mk ['q'] false).key]))) = none)
    ∧ get_value c7App 0 = some c7App :=
  ⟨⟨rfl, by decide, by decide⟩,
   c7_get_value_miss_is_ok_and_keeps_value c7App c7Store 0
     { key := ['q'], has_children := false } rfl (by decide) (by decide)⟩

/-! ## Claim C10 -/

/-- Claim C10, confirmed: for every in-range index, `get_value` succeeds and
leaves every field of `App` other than `current_value` unchanged — the
cursor, delimiter, cached key tree, cached window, selected tree and
database handle are identical before and after — and when the point lookup
finds no value, `current_value` itself also keeps its previous content. -/
theorem c10_get_value_frame (a : App) (i : Nat)
    (h : i < (a.current_key_range.2).length) :
    ∃ a', get_value a i = some a'
      ∧ a'.db = a.db
      ∧ a'.sled_trees = a.sled_trees
      ∧ a'.current_tree = a.current_tree
      ∧ a'.current_path = a.current_path
      ∧ a'.delimiter = a.delimiter
      ∧ a'.cached_key_tree = a.cached_key_tree
      ∧ a'.current_key_range = a.current_key_range
      ∧ (∀ t, a.current_tree = some t →
          ∀ e, (a.current_key_range.2).get? i = some e →
          SledTree.getVal t (utf8Encode (joinList ['/'] (a.current_path ++ [e.key])))
            = none →
          a'.current_value = a.current_value) := by
  cases ht : a.current_tree with
  | none =>
    exact ⟨a, by simp [get_value, ht], rfl, rfl, ht, rfl, rfl, rfl, rfl,
      fun t htt => Option.noConfusion htt⟩
  | some t =>
    obtain he : (a.current_key_range.2).get? i
        = some ((a.current_key_range.2).get ⟨i, h⟩) := List.get?_eq_get h
    cases hv : SledTree.getVal t
        (utf8Encode (joinList ['/']
          (a.current_path ++ [((a.current_key_range.2).get ⟨i, h⟩).key]))) with
    | some v =>
      refine ⟨{ a with current_value := some v },
        get_value_hit a i ht he hv, rfl, rfl, ht, rfl, rfl, rfl, rfl,
        fun t' htt' e' hee' hmiss' => ?_⟩
      have hq := Option.some.inj htt'
      subst hq
      rw [he] at hee'
      have hq2 := Option.some.inj hee'
      subst hq2
      rw [hv] at hmiss'
      exact Option.noConfusion hmiss'
    | none =>
      exact ⟨a, get_value_miss a i ht he hv, rfl, rfl, ht, rfl, rfl, rfl, rfl,
        fun _ _ _ _ _ => rfl⟩

/-- State used to witness C10: one window entry, no keyspace selected. -/
def c10App : App :=
  { App.new with current_key_range := (0, [{ key := ['q'], has_children := false }]) }

/-- Witness for C10 at index 0 of a one-entry window. -/
theorem c10_get_value_frame_witness :
    0 < (c10App.current_key_range.2).length
    ∧ ∃ a', get_value c10App 0 = some a'
      ∧ a'.db = c10App.db
      ∧ a'.sled_trees = c10App.sled_trees
      ∧ a'.current_tree = c10App.current_tree
      ∧ a'.current_path = c10App.current_path
      ∧ a'.delimiter = c10App.delimiter
      ∧ a'.cached_key_tree = c10App.cached_key_tree
      ∧ a'.current_key_range = c10App.current_key_range
      ∧ (∀ t, c10App.current_tree = some t →
          ∀ e, (c10App.current_key_range.2).get? 0 = some e →
          SledTree.getVal t
            (utf8Encode (joinList ['/'] (c10App.current_path ++ [e.key]))) = none →
          a'.current_value = c10App.current_value) :=
  ⟨by decide, c10_get_value_frame c10App 0 (by decide)⟩

/-! ## Claim C8 -/

/-- Claim C8, confirmed: for a fixed state, in flat and in delimited mode
alike, (1) any partition of the level's full entry range into contiguous,
non-overlapping windows — counts `cs` summing to the level's entry count,
windows fetched one after the other — concatenates exactly to the one-shot
full window, with no gaps or duplicates; (2) every window has length
`min count (total - offset)`; (3) whenever a delimiter is configured and an
index is cached (the delimited mode the claim describes), the level's entry
count is exactly `total_keys`. -/
theorem c8_window_partition (a : App) (cs : List Nat)
    (hsum : cs.sum = (level_entries a).length) :
    windows_seq a (ranges_from 0 cs)
      = (get_keys_range a 0 (level_entries a).length).2
    ∧ (∀ offset count, ((get_keys_range a offset count).2).length
        = min count ((level_entries a).length - offset))
    ∧ (a.delimiter.isSome = true → a.cached_key_tree.isSome = true →
        total_keys a = (level_entries a).length) := by
  refine ⟨?_, ?_, ?_⟩
  · rw [windows_seq_eq, get_keys_range_snd, hsum]
  · intro offset count
    rw [get_keys_range_snd]
    simp [List.length_take, List.length_drop]
  · intro hd hc
    rw [Option.isSome_iff_exists] at hd hc
    obtain ⟨d, hd⟩ := hd
    obtain ⟨kt, hc⟩ := hc
    rw [total_keys, hc, level_entries, hd, hc]
    cases hr : resolveChildren kt.keys a.current_path with
    | none => simp [hr]
    | some m => simp [hr]

/-- Flat keyspace with 120 keys in ascending order (the spec's scenario). -/
def c8Tree : SledTree := (List.range 120).map fun i => ([i], [i])

def c8App : App := { App.new with current_tree := some c8Tree }

/-- Witness for C8: with 120 flat keys, the partition `[100, 20]`
reassembles the full window, and `GetWindow(100, 30)` has length
`min 30 (120 - 100) = 20`. -/
theorem c8_window_partition_witness :
    [100, 20].sum = (level_entries c8App).length
    ∧ windows_seq c8App (ranges_from 0 [100, 20])
        = (get_keys_range c8App 0 (level_entries c8App).length).2
    ∧ ((get_keys_range c8App 100 30).2).length
        = min 30 ((level_entries c8App).length - 100)
    ∧ min 30 ((level_entries c8App).length - 100) = 20 :=
  ⟨by decide,
   (c8_window_partition c8App [100, 20] (by decide)).1,
   (c8_window_partition c8App [100, 20] (by decide)).2.1 100 30,
   by decide⟩

/-! ## Claim C9 -/

/-- Keyspace (in ascending byte order) holding `"�/b"` (valid UTF-8, bytes
`EF BF BD 2F 62`) and the ill-formed key `FF`, whose lossily-decoded string
form `"�"` is a strict prefix of the other key's segment path. -/
def c9Tree : SledTree := [([0xEF, 0xBF, 0xBD, 0x2F, 0x62], [2]), ([0xFF], [1])]

def c9App : App := { App.new with current_tree := some c9Tree, delimiter := some ['/'] }

def c9Built : App := build_key_tree c9App

def c9Win : App × List KeyEntry := get_keys_range c9Built 0 (total_keys c9Built)

/-- Claim C9, counterexample: the claim quantifies over every keyspace in
which one key's string form is a strict prefix of another key's segment
path.  Here that holds (both split to `["�"]` and `["�", "b"]`), the index
side holds as claimed — the shared node is value-bearing with children and
the window reports `hasChildren = true` — but `GetValue` on the shared
node's own path does NOT return the bound value: the index path came from a
lossy decode of `FF`, so the rebuilt key `EF BF BD` misses the store and
`current_value` stays empty, although `FF ↦ [1]` is bound. -/
theorem c9_cex :
    splitList ['/'] (utf8DecodeLossy [0xFF]) = [[replChar]]
    ∧ splitList ['/'] (utf8DecodeLossy [0xEF, 0xBF, 0xBD, 0x2F, 0x62])
        = [[replChar], ['b']]
    ∧ c9Win.2 = [{ key := [replChar], has_children := true }]
    ∧ (get_value c9Win.1 0).map App.current_value = some none
    ∧ SledTree.getVal c9Tree [0xFF] = some [1] := by
  refine ⟨by decide, by decide, by decide, by decide, by decide⟩

/-- Claim C9, amended: restricted to the hard-coded join separator `"/"`
(the configured delimiter — see C1) and to a prefix key whose bytes survive
the lossy decode unchanged (valid UTF-8 — see C6), the claim holds for
every keyspace: if `k1`'s segment path is a proper prefix of `k2`'s, the
built index marks the shared node value-bearing AND with children, the full
window at the node's parent cursor reports `hasChildren = true` for it, and
`get_value` on its own path sets `current_value` to the value bound to
`k1` — the two facts never collide. -/
theorem c9_prefix_key_both_value_and_children (a : App) (ks : SledTree)
    (k1 v1 k2 : Bytes)
    (hd : a.delimiter = some ['/'])
    (ht : a.current_tree = some ks)
    (hk1 : (k1, v1) ∈ ks)
    (hk2 : k2 ∈ ks.map Prod.fst)
    (hvalid : utf8Encode (utf8DecodeLossy k1) = k1)
    (hpre : splitList ['/'] (utf8DecodeLossy k1) <+: splitList ['/'] (utf8DecodeLossy k2))
    (hne : splitList ['/'] (utf8DecodeLossy k1) ≠ splitList ['/'] (utf8DecodeLossy k2))
    (hcur : a.current_path = (splitList ['/'] (utf8DecodeLossy k1)).dropLast) :
    ∃ kt n, (build_key_tree a).cached_key_tree = some kt
      ∧ lookupPath kt.keys (splitList ['/'] (utf8DecodeLossy k1)) = some n
      ∧ n.has_value = true
      ∧ n.children ≠ []
      ∧ ∃ i lastSeg v,
          splitList ['/'] (utf8DecodeLossy k1)
            = (splitList ['/'] (utf8DecodeLossy k1)).dropLast ++ [lastSeg]
          ∧ ((get_keys_range (build_key_tree a) 0
                (total_keys (build_key_tree a))).2).get? i
              = some { key := lastSeg, has_children := true }
          ∧ SledTree.getVal ks k1 = some v
          ∧ get_value
              (get_keys_range (build_key_tree a) 0 (total_keys (build_key_tree a))).1 i
              = some { (get_keys_range (build_key_tree a) 0
                  (total_keys (build_key_tree a))).1 with current_value := some v } := by
  have hq : splitList ['/'] (utf8DecodeLossy k1) ≠ [] := splitList_ne_nil _ _
  set segs1 := splitList ['/'] (utf8DecodeLossy k1) with hsegs1
  -- decompose the proper prefix
  obtain ⟨tail, htail⟩ := hpre
  have htne : tail ≠ [] := by
    intro hh
    rw [hh] at htail
    simp at htail
    exact hne (by rw [← htail])
  obtain ⟨r, rs, hrs⟩ : ∃ r rs, tail = r :: rs := by
    cases tail with
    | nil => exact absurd rfl htne
    | cons r rs => exact ⟨r, rs, rfl⟩
  have hsplit2 : splitList ['/'] (utf8DecodeLossy k2) = segs1 ++ r :: rs := by
    rw [← htail, hrs]
  -- node facts in the built map
  have h1mem : k1 ∈ ks.map Prod.fst := by
    have := List.mem_map_of_mem Prod.fst hk1
    simpa using this
  obtain ⟨n1, hn1, hv1⟩ := buildMap_has_value (d := ['/']) (t := ks) h1mem
  obtain ⟨n2, hn2, hc2⟩ :=
    buildMap_children_of_extends (d := ['/']) (t := ks) hk2 hq hsplit2
  rw [hn1] at hn2
  have hn12 := Option.some.inj hn2
  subst hn12
  -- last segment and the cursor's children map
  have hlast := List.dropLast_append_getLast hq
  set lastSeg := segs1.getLast hq with hlastdef
  have hres := lookupPath_append_last segs1.dropLast lastSeg (buildMap ['/'] ks)
  rw [hlast, hn1] at hres
  cases hrm : resolveChildren (buildMap ['/'] ks) segs1.dropLast with
  | none => rw [hrm] at hres; simp at hres
  | some mm =>
    rw [hrm] at hres
    simp only [Option.some_bind] at hres
    have hlk : lookupMap mm lastSeg = some n1 := hres.symm
    -- facts about the state after build_key_tree
    have hbeq := build_key_tree_eq a ht hd
    have hbd : (build_key_tree a).delimiter = some ['/'] := by rw [hbeq]; exact hd
    have hbt : (build_key_tree a).current_tree = some ks := by rw [hbeq]; exact ht
    have hbp : (build_key_tree a).current_path = segs1.dropLast := by rw [hbeq]; exact hcur
    have hbc : (build_key_tree a).cached_key_tree
        = some (KeyTree.mk (buildMap ['/'] ks)
            (count_visible_keys a (KeyTree.mk (buildMap ['/'] ks) 0))) := by
      rw [hbeq]
    have hrb : resolveChildren
        (KeyTree.mk (buildMap ['/'] ks)
          (count_visible_keys a (KeyTree.mk (buildMap ['/'] ks) 0))).keys
        (build_key_tree a).current_path = some mm := by
      rw [hbp]; exact hrm
    have htot : total_keys (build_key_tree a) = mm.length :=
      total_keys_resolved _ hbc hrb
    -- the full window at the cursor
    have hgkr := get_keys_range_delim (build_key_tree a) hbd hbc hrb 0
      (total_keys (build_key_tree a))
    have hw : ((mm.drop 0).take (total_keys (build_key_tree a))).map projEntry
        = mm.map projEntry := by
      rw [htot]
      simp
    rw [hw] at hgkr
    -- the shared node's entry appears in the window with has_children = true
    have hmem : (lastSeg, n1) ∈ mm := lookupMap_mem hlk
    have hcc : n1.children.isEmpty = false := by
      cases hcase : n1.children with
      | nil => exact absurd hcase hc2
      | cons _ _ => rfl
    have hproj : projEntry (lastSeg, n1)
        = { key := lastSeg, has_children := true } := by
      simp [projEntry, hcc]
    have hmemw : ({ key := lastSeg, has_children := true } : KeyEntry)
        ∈ mm.map projEntry := by
      rw [← hproj]
      exact List.mem_map_of_mem projEntry hmem
    obtain ⟨i, hi⟩ := List.get?_of_mem hmemw
    -- the value bound to k1
    obtain ⟨v, hval⟩ := getVal_isSome_of_mem hk1
    -- reconstructing the fully-qualified key hits k1 exactly
    have hjoin : joinList ['/'] segs1 = utf8DecodeLossy k1 := by
      rw [hsegs1]
      exact joinList_splitList (by simp) _
    have hfull : utf8Encode (joinList ['/'] (segs1.dropLast ++ [lastSeg])) = k1 := by
      rw [hlast, hjoin, hvalid]
    refine ⟨KeyTree.mk (buildMap ['/'] ks)
        (count_visible_keys a (KeyTree.mk (buildMap ['/'] ks) 0)),
      n1, hbc, hn1, hv1, hc2, i, lastSeg, v, hlast.symm, ?_, hval, ?_⟩
    · rw [hgkr]
      exact hi
    · apply get_value_hit
      · show (get_keys_range (build_key_tree a) 0
            (total_keys (build_key_tree a))).1.current_tree = some ks
        rw [hgkr]
        exact hbt
      · show ((get_keys_range (build_key_tree a) 0
            (total_keys (build_key_tree a))).1.current_key_range.2).get? i
          = some { key := lastSeg, has_children := true }
        rw [hgkr]
        exact hi
      · show SledTree.getVal ks
            (utf8Encode (joinList ['/']
              ((get_keys_range (build_key_tree a) 0
                (total_keys (build_key_tree a))).1.current_path
                ++ [({ key := lastSeg, has_children := true } : KeyEntry).key])))
          = some v
        rw [hgkr]
        show SledTree.getVal ks
            (utf8Encode (joinList ['/'] ((build_key_tree a).current_path ++ [lastSeg])))
          = some v
        rw [hbp, hfull]
        exact hval

/-- Keyspace `{ "a" ↦ [1], "a/b" ↦ [2] }` for the amended C9. -/
def c9WTree : SledTree := [([97], [1]), ([97, 47, 98], [2])]

def c9WApp : App := { App.new with current_tree := some c9WTree, delimiter := some ['/'] }

/-- Witness for the amended C9: with `"a"` and `"a/b"` both stored and
delimiter `"/"`, the shared node is value-bearing with children, the window
shows `"a"` with `hasChildren = true`, and `get_value` on it yields `[1]`. -/
theorem c9_prefix_key_both_value_and_children_witness :
    (c9WApp.delimiter = some ['/']
      ∧ c9WApp.current_tree = some c9WTree
      ∧ ([97], [1]) ∈ c9WTree
      ∧ [97, 47, 98] ∈ c9WTree.map Prod.fst
      ∧ utf8Encode (utf8DecodeLossy [97]) = [97]
      ∧ splitList ['/'] (utf8DecodeLossy [97])
          <+: splitList ['/'] (utf8DecodeLossy [97, 47, 98])
      ∧ splitList ['/'] (utf8DecodeLossy [97])
          ≠ splitList ['/'] (utf8DecodeLossy [97, 47, 98])
      ∧ c9WApp.current_path = (splitList ['/'] (utf8DecodeLossy [97])).dropLast)
    ∧ ∃ kt n, (build_key_tree c9WApp).cached_key_tree = some kt
      ∧ lookupPath kt.keys (splitList ['/'] (utf8DecodeLossy [97])) = some n
      ∧ n.has_value = true
      ∧ n.children ≠ []
      ∧ ∃ i lastSeg v,
          splitList ['/'] (utf8DecodeLossy [97])
            = (splitList ['/'] (utf8DecodeLossy [97])).dropLast ++ [lastSeg]
          ∧ ((get_keys_range (build_key_tree c9WApp) 0
                (total_keys (build_key_tree c9WApp))).2).get? i
              = some { key := lastSeg, has_children := true }
          ∧ SledTree.getVal c9WTree [97] = some v
          ∧ get_value
              (get_keys_range (build_key_tree c9WApp) 0
                (total_keys (build_key_tree c9WApp))).1 i
              = some { (get_keys_range (build_key_tree c9WApp) 0
                  (total_keys (build_key_tree c9WApp))).1 with current_value := some v } :=
  ⟨⟨rfl, rfl, by decide, by decide, by decide, by decide, by decide, by decide⟩,
   c9_prefix_key_both_value_and_children c9WApp c9WTree [97] [1] [97, 47, 98]
     rfl rfl (by decide) (by decide) (by decide) (by decide) (by decide) (by decide)⟩
